import Mathlib

/-!
Shallow embedding of the `register` management command of the resolwe
repository (`resolwe/flow/management/commands/register.py`), together with
theorems about its schema-normalization, YAML-discovery and version-aware
upsert behaviour.

Python dictionaries holding process definitions are embedded as a structure
of optional fields (`ProcDef`); exceptions raised by the Python code are
embedded as the error side of `Except PyErr`; the relational store is an
explicit state (`Db`) threaded through the registration functions.
-/

namespace Resolwe

/-- Python exceptions that the embedded code can raise. -/
inductive PyErr where
  | keyError (key : String)
  | indexError
  | typeError
  | yamlError
  | valueError
  | systemExit (code : Nat)
deriving DecidableEq

/-- A semantic version, the parsed form of the `version` strings found in the
YAML definitions (e.g. `"1.0.2"`). -/
structure Version where
  major : Nat
  minor : Nat
  patch : Nat
deriving DecidableEq

/-- Renders a version the way it appears in the YAML files, for comparing the
packed-integer ordering with lexical string ordering. -/
def versionString (v : Version) : String :=
  toString v.major ++ "." ++ toString v.minor ++ "." ++ toString v.patch

/-- Modelled from the spec: `VERSION_NUMBER_BITS` lives in
`resolwe/flow/models/base.py`, which is not under `src/`; the spec says the
version comparison uses "a packed integer encoding of major/minor/patch". -/
def VERSION_NUMBER_BITS : List Nat := [8, 10, 14]

/-- Modelled from the spec: `convert_version_string_to_int` comes from the
external `versionfield` package; the spec describes it as packing
major/minor/patch into one integer, major in the most significant bits. -/
def convert_version_string_to_int (v : Version) : Nat :=
  (v.major % 2 ^ 8) * 2 ^ 24 + (v.minor % 2 ^ 10) * 2 ^ 14 + v.patch % 2 ^ 14

/-- One entry of an `input`/`output`/`var`/`static`/`schema` field list: a
leaf field dict (with `name`, `type` and optional `default`), or a group
field whose `group` key holds nested fields. -/
inductive Field where
  | leaf (name : String) (ty : String) (default : Option String)
  | group (name : String) (sub : List Field)

/-- The `run` block of a process definition. -/
structure RunBlock where
  language : Option String
  program : String
deriving DecidableEq

/-- A process definition as loaded from YAML: a dictionary with optional
keys, embedded as a structure of `Option` fields. -/
structure ProcDef where
  slug? : Option String := none
  name? : Option String := none
  label? : Option String := none
  version? : Option Version := none
  type? : Option String := none
  category? : Option String := none
  persistence? : Option String := none
  scheduling_class? : Option String := none
  data_name? : Option String := none
  input? : Option (List Field) := none
  output? : Option (List Field) := none
  var? : Option (List Field) := none
  static? : Option (List Field) := none
  input_schema? : Option (List Field) := none
  output_schema? : Option (List Field) := none
  run? : Option RunBlock := none

/-- `s[-1] == ':'` on a Python string: the last character is the namespace
separator (false on the empty string, where Python would instead raise). -/
def lastIsColon (s : String) : Bool :=
  s.data.getLast? = some ':'

mutual

/-- Modelled from the spec: `iterate_schema` lives in `resolwe/flow/utils.py`,
not under `src/`; per the spec it visits "every nested field", recursing
through group fields and yielding the leaf field dicts in order. -/
def leavesF : Field → List Field
  | .leaf n t d => [.leaf n t d]
  | .group _ sub => leavesL sub

/-- Leaf fields of a field list, in iteration order (see `leavesF`). -/
def leavesL : List Field → List Field
  | [] => []
  | f :: fs => leavesF f ++ leavesL fs

end

/-- The type-colon fixup shared by the top-level `type` and the nested field
types: `if s[-1] != ':' : s += ':'` (the nested loop spells the test
`s[-1].endswith(':')`, which on the one-character string `s[-1]` is the same
comparison).  Indexing `s[-1]` raises `IndexError` on the empty string. -/
def normTypeStr (t : String) : Except PyErr String :=
  if t.data = [] then .error .indexError
  else if lastIsColon t then .ok t
  else .ok (t ++ ":")

mutual

/-- The body of the nested-type normalization loop, applied to one field:
`if not schema['type'][-1].endswith(':'): schema['type'] += ':'`. -/
def addColonField : Field → Except PyErr Field
  | .leaf n t d =>
    match normTypeStr t with
    | .ok t' => .ok (.leaf n t' d)
    | .error e => .error e
  | .group n sub =>
    match addColonFields sub with
    | .ok sub' => .ok (.group n sub')
    | .error e => .error e

/-- `addColonField` over a field list, stopping at the first raise. -/
def addColonFields : List Field → Except PyErr (List Field)
  | [] => .ok []
  | f :: fs =>
    match addColonField f with
    | .error e => .error e
    | .ok f' =>
      match addColonFields fs with
      | .error e => .error e
      | .ok fs' => .ok (f' :: fs')

end

/-- `addColonFields` on an optional field list; a missing key iterates the
empty dict (`p[field] if field in p else {}`) and stays missing. -/
def addColonOpt : Option (List Field) → Except PyErr (Option (List Field))
  | none => .ok none
  | some fs =>
    match addColonFields fs with
    | .ok gs => .ok (some gs)
    | .error e => .error e

/-- Python `s.replace(':', '-')`. -/
def replaceColonDash (s : String) : String :=
  String.mk (s.data.map (fun c => if c = ':' then '-' else c))

/-- Modelled from the spec: Django's `slugify` is external to the repository;
per the spec the legacy shim derives the slug from the old-style name, so we
model it as lowercasing and replacing non-alphanumeric characters with
hyphens. -/
def slugify (s : String) : String :=
  String.mk (s.data.map (fun c => if c.isAlphanum then c.toLower else '-'))

/-- `if p['type'][-1] != ':': p['type'] += ':'` — raises `KeyError` when the
definition has no `type` key and `IndexError` when the type string is empty. -/
def normTypeStep (p : ProcDef) : Except PyErr ProcDef :=
  match p.type? with
  | none => .error (.keyError "type")
  | some t =>
    match normTypeStr t with
    | .ok t' => .ok { p with type? := some t' }
    | .error e => .error e

/-- `if 'category' in p and not p['category'].endswith(':'): p['category'] += ':'`. -/
def normCategoryStep (p : ProcDef) : ProcDef :=
  match p.category? with
  | some c => if lastIsColon c then p else { p with category? := some (c ++ ":") }
  | none => p

/-- One step of the `data_name` scan: remember the `default` of a leaf named
`"name"` that has one. -/
def dataNameScan (acc : Option String) (f : Field) : Option String :=
  match f with
  | .leaf n _ (some d) => if n = "name" then some d else acc
  | _ => acc

/-- The `data_name` assigned by iterating the `static` fields: the `default`
of the last leaf named `"name"` that has one. -/
def dataNameFromStatic (fs : List Field) : Option String :=
  (leavesL fs).foldl dataNameScan none

/-- `if 'static' in p: ... p['data_name'] = schema['default']` for each leaf
of `static` named `"name"` with a default (the last one wins). -/
def dataNameStep (p : ProcDef) : ProcDef :=
  match p.static? with
  | some fs =>
    match dataNameFromStatic fs with
    | some d => { p with data_name? := some d }
    | none => p
  | none => p

/-- The backward-compatibility shim: when `slug` is absent, derive it from
the popped `name`, move `label` into `name`, and drop `var`/`static`.
Popping a missing `name` or `label` raises `KeyError`. -/
def renameLegacyStep (p : ProcDef) : Except PyErr ProcDef :=
  match p.slug? with
  | some _ => .ok p
  | none =>
    match p.name? with
    | none => .error (.keyError "name")
    | some nm =>
      match p.label? with
      | none => .error (.keyError "label")
      | some lb =>
        .ok { p with slug? := some (slugify (replaceColonDash nm)),
                     name? := some lb, label? := none,
                     var? := none, static? := none }

/-- The loop `for field in ['input', 'output', 'var', 'static']` appending
`':'` to every nested field type that lacks it. -/
def colonFieldsStep (p : ProcDef) : Except PyErr ProcDef :=
  match addColonOpt p.input? with
  | .error e => .error e
  | .ok i =>
    match addColonOpt p.output? with
    | .error e => .error e
    | .ok o =>
      match addColonOpt p.var? with
      | .error e => .error e
      | .ok v =>
        match addColonOpt p.static? with
        | .error e => .error e
        | .ok s => .ok { p with input? := i, output? := o, var? := v, static? := s }

/-- The normalization phase of `register_processes` (register.py lines
101-126): top-level type colon, category colon, `data_name` extraction,
legacy rename, nested type colons. -/
def normalize (p : ProcDef) : Except PyErr ProcDef :=
  match normTypeStep p with
  | .error e => .error e
  | .ok p1 =>
    match renameLegacyStep (dataNameStep (normCategoryStep p1)) with
    | .error e => .error e
    | .ok p2 => colonFieldsStep p2

/-- Lexical (code-point) comparison of character lists, as Python compares
strings with `<`. -/
def charListLt : List Char → List Char → Bool
  | [], [] => false
  | [], _ :: _ => true
  | _ :: _, [] => false
  | a :: as, b :: bs => if a < b then true else if b < a then false else charListLt as bs

/-- Lexical string order, for contrasting with the packed-integer version
order. -/
def pyStrLt (a b : String) : Bool := charListLt a.data b.data

/-- Modelled from the spec: `validation_schema('processor')` loads a JSON
schema file that is not under `src/`; per the spec it is "a fixed structural
schema" for processor definitions, so we model it as requiring the identity,
version, type and run block to be present. -/
def validProcessor (p : ProcDef) : Bool :=
  p.slug?.isSome && p.name?.isSome && p.version?.isSome && p.type?.isSome && p.run?.isSome

/-- `persistence_mapping`: YAML persistence names to the model constants
(`Process.PERSISTENCE_*`, whose values live outside `src/`); an unmapped name
raises `KeyError`. -/
def persistence_mapping : String → Option String
  | "RAW" => some "RAW"
  | "CACHED" => some "CAC"
  | "TEMP" => some "TMP"
  | _ => none

/-- `scheduling_class_mapping`: YAML scheduling names to the model constants
(`Process.SCHEDULING_CLASS_*`, whose values live outside `src/`). -/
def scheduling_class_mapping : String → Option String
  | "interactive" => some "IN"
  | "batch" => some "BA"
  | _ => none

/-- `if 'persistence' in p: p['persistence'] = persistence_mapping[p['persistence']]`. -/
def mapPersistence (p : ProcDef) : Except PyErr ProcDef :=
  match p.persistence? with
  | none => .ok p
  | some s =>
    match persistence_mapping s with
    | none => .error (.keyError s)
    | some v => .ok { p with persistence? := some v }

/-- `if 'scheduling_class' in p: ...` analogous to `mapPersistence`. -/
def mapScheduling (p : ProcDef) : Except PyErr ProcDef :=
  match p.scheduling_class? with
  | none => .ok p
  | some s =>
    match scheduling_class_mapping s with
    | none => .error (.keyError s)
    | some v => .ok { p with scheduling_class? := some v }

/-- `p['input_schema'] = p.pop('input')` and `p['output_schema'] = p.pop('output')`. -/
def renameIOSchemas (p : ProcDef) : ProcDef :=
  let p := match p.input? with
    | some fs => { p with input_schema? := some fs, input? := none }
    | none => p
  match p.output? with
  | some fs => { p with output_schema? := some fs, output? := none }
  | none => p

/-- Modelled from the spec: the execution-engine registry
(`manager.get_execution_engine`) is an external collaborator; per the spec an
unsupported language makes the definition be skipped with a warning, so we
model the registry as a fixed set of supported languages. -/
def executionEngineLanguages : List String := ["bash", "python"]

/-- Modelled from the spec: a supported engine may augment the output schema
(`get_output_schema`); the engines themselves are outside the repository, so
the model contributes no extra fields. -/
def engineExtraOutput (_lang : String) (_p : ProcDef) : List Field := []

/-- The run-block handling: default the language to `bash`, look the engine
up, extend the output schema with the engine's extra fields when it returns
any, and skip the definition (`none`) when the engine is unsupported. -/
def runEngineStep (p : ProcDef) : Option ProcDef :=
  match p.run? with
  | none => some p
  | some run =>
    let lang := run.language.getD "bash"
    let p := { p with run? := some { run with language := some lang } }
    if lang ∈ executionEngineLanguages then
      let extra := engineExtraOutput lang p
      if extra.isEmpty then some p
      else some { p with output_schema? := some ((p.output_schema?.getD []) ++ extra) }
    else none

/-- The per-definition pipeline of `register_processes` before the version
logic: normalization, validation, enum mappings, `input`/`output` renames,
slug read (`slug = p['slug']`) and engine resolution.  `.ok none` means the
definition was skipped (validation failure or unsupported engine); `.error`
means the loop raised. -/
def prepare (p0 : ProcDef) : Except PyErr (Option (String × ProcDef)) :=
  match normalize p0 with
  | .error e => .error e
  | .ok p =>
    if validProcessor p then
      match mapPersistence p with
      | .error e => .error e
      | .ok p =>
        match mapScheduling p with
        | .error e => .error e
        | .ok p =>
          let p := renameIOSchemas p
          match p.slug? with
          | none => .error (.keyError "slug")
          | some slug =>
            match runEngineStep p with
            | none => .ok none
            | some p => .ok (some (slug, p))
    else .ok none

/-- A stored `Process` row: the versionfield column stores the packed integer
version; `fields` holds the registered definition; `perms` the ACL grants
(permission name × user id). -/
structure ProcessRecord where
  id : Nat
  slug : String
  version : Nat
  fields : ProcDef
  contributor : Nat
  perms : List (String × Nat)

/-- The relational store visible to the command: the `Process` table plus the
next primary key. -/
structure Db where
  procs : List ProcessRecord
  nextId : Nat

/-- Modelled from the spec: the permission names granted to a record's
contributor by `assign_contributor_permissions`
(`resolwe/permissions/utils.py`, not under `src/`). -/
def ALL_PERMISSIONS : List String := ["view", "edit", "share", "download"]

/-- Modelled from the spec: `assign_contributor_permissions` grants the
record's contributor the full permission set on the record. -/
def assign_contributor_permissions (r : ProcessRecord) : ProcessRecord :=
  { r with perms := r.perms ++ ALL_PERMISSIONS.map (fun a => (a, r.contributor)) }

/-- Modelled from the spec: `copy_permissions` copies every permission grant
of the source record onto the destination record. -/
def copy_permissions (src dst : ProcessRecord) : ProcessRecord :=
  { dst with perms := dst.perms ++ src.perms }

/-- `Process.objects.filter(slug=slug).aggregate(Max('version'))['version__max']`:
the greatest stored (packed) version among the records, `none` on an empty
queryset. -/
def maxVersion : List ProcessRecord → Option Nat
  | [] => none
  | r :: rs =>
    match maxVersion rs with
    | none => some r.version
    | some m => some (Nat.max r.version m)

/-- `queryset.latest()`: the record with the greatest stored version (the
models order by version; the earliest such record on a tie). -/
def latestRecord : List ProcessRecord → Option ProcessRecord
  | [] => none
  | r :: rs =>
    match latestRecord rs with
    | none => some r
    | some m => if r.version < m.version then some m else some r

/-- One iteration of the `register_processes` loop on definition `p0`:
pipeline, version-floor check, then skip / update / insert. -/
def processOne (st : Db) (user : Nat) (force : Bool) (p0 : ProcDef) : Except PyErr Db :=
  match prepare p0 with
  | .error e => .error e
  | .ok none => .ok st
  | .ok (some (slug, p)) =>
    match p.version? with
    | none => .error (.keyError "version")
    | some v =>
      let int_version := convert_version_string_to_int v
      let slugRecords := st.procs.filter (fun r => r.slug = slug)
      let skipNewer : Bool :=
        match maxVersion slugRecords with
        | some lv => decide (int_version < lv)
        | none => false
      if skipNewer then .ok st
      else
        let previous := latestRecord slugRecords
        let exact := st.procs.filter (fun r => r.slug = slug && r.version = int_version)
        if !exact.isEmpty then
          if !force then .ok st
          else
            .ok { st with procs := st.procs.map (fun r =>
                    if r.slug = slug && r.version = int_version then
                      { r with slug := slug, version := int_version, fields := p }
                    else r) }
        else
          let created : ProcessRecord :=
            ⟨st.nextId, slug, int_version, p, user, []⟩
          let created := assign_contributor_permissions created
          let created :=
            match previous with
            | some prev => copy_permissions prev created
            | none => created
          .ok ⟨st.procs ++ [created], st.nextId + 1⟩

/-- `register_processes`: the loop over the discovered process definitions;
an exception raised by one iteration propagates and aborts the batch. -/
def register_processes (st : Db) (user : Nat) (force : Bool) :
    List ProcDef → Except PyErr Db
  | [] => .ok st
  | p :: ps =>
    match processOne st user force p with
    | .error e => .error e
    | .ok st' => register_processes st' user force ps

/-- The outcome of `yaml.load(open(schema_file))`: PyYAML raises on
malformed input, and otherwise yields a value; a falsy value (`None` or an
empty document list, both caught by `if not schemas`) is modelled as the
empty list. -/
inductive YamlLoad where
  | parseFailure
  | value (docs : List ProcDef)

/-- A file met by `os.walk`: its (path) name and what loading it yields. -/
structure YamlFile where
  name : String
  load : YamlLoad

/-- A path handed to `find_schemas`: whether `os.path.isdir` holds and the
files `os.walk` finds beneath it, in walk order. -/
structure SearchPath where
  isDir : Bool
  files : List YamlFile

/-- `schema_file.lower().endswith(('.yml', '.yaml'))`, expressed on the
character list: lowercase every character, then test the suffix. -/
def isYamlName (s : String) : Bool :=
  ".yml".data.isSuffixOf (s.data.map Char.toLower)
    || ".yaml".data.isSuffixOf (s.data.map Char.toLower)

/-- `filters and ...`: a `None` or empty filter list is falsy and disables
filtering. -/
def filtersTruthy : Option (List String) → Bool
  | none => false
  | some [] => false
  | some (_ :: _) => true

/-- The per-document checks of `find_schemas` for `schema_type='process'`:
the name filter (`schema.get('slug', '') in filters or schema.get('name', '')
in filters`) and the `'run' in schema` requirement. -/
def schemaPasses (filters : Option (List String)) (p : ProcDef) : Bool :=
  (!filtersTruthy filters
    || decide ((p.slug?.getD "") ∈ filters.getD [])
    || decide ((p.name?.getD "") ∈ filters.getD []))
  && p.run?.isSome

/-- The file loop of `find_schemas`: non-YAML extensions are skipped, a file
whose load raises propagates the exception, a falsy load is reported and
skipped, and the matching documents of the rest are collected in order. -/
def collectSchemas (filters : Option (List String)) :
    List YamlFile → Except PyErr (List ProcDef)
  | [] => .ok []
  | f :: fs =>
    if !isYamlName f.name then collectSchemas filters fs
    else
      match f.load with
      | .parseFailure => .error .yamlError
      | .value docs =>
        if docs.isEmpty then collectSchemas filters fs
        else
          match collectSchemas filters fs with
          | .error e => .error e
          | .ok rest => .ok (docs.filter (schemaPasses filters) ++ rest)

/-- `find_schemas` specialized to `schema_type='process'` (the descriptor
variant differs only in the per-document key check): a path that is not a
directory logs `Invalid path` and returns `None` (`.ok none`); otherwise the
matching documents of its YAML files are returned. -/
def find_schemas (sp : SearchPath) (filters : Option (List String)) :
    Except PyErr (Option (List ProcDef)) :=
  if !sp.isDir then .ok none
  else
    match collectSchemas filters sp.files with
    | .error e => .error e
    | .ok l => .ok (some l)

/-- A row of the user table, with the fields `handle` consults. -/
structure User where
  id : Nat
  is_superuser : Bool
  date_joined : Nat

/-- `get_user_model().objects.filter(is_superuser=True).order_by('date_joined').first()`:
the earliest-joined superuser (the earliest row on a date tie), `none` when
no superuser exists. -/
def earliestSuperuser : List User → Option User
  | [] => none
  | u :: us =>
    let rest := earliestSuperuser us
    if u.is_superuser then
      match rest with
      | none => some u
      | some m => if m.date_joined < u.date_joined then some m else some u
    else rest

/-- Modelled from the spec: the pluggable finder collaborators
(`get_finders`) are external; the model configures none, so they contribute
no search paths when `--path` is empty. -/
def finderProcessPaths : List SearchPath := []

/-- The path loop of `handle`:
`process_schemas.extend(self.find_schemas(proc_path, ...))`.  When
`find_schemas` returns `None` the `extend` raises `TypeError`; an exception
from `find_schemas` itself propagates. -/
def collectFromPaths (filters : Option (List String)) :
    List SearchPath → Except PyErr (List ProcDef)
  | [] => .ok []
  | sp :: sps =>
    match find_schemas sp filters with
    | .error e => .error e
    | .ok none => .error .typeError
    | .ok (some l) =>
      match collectFromPaths filters sps with
      | .error e => .error e
      | .ok rest => .ok (l ++ rest)

/-- The `handle` entry point of the command, for its process half (the
descriptor half repeats the same shape with `register_descriptors`): fail
with exit status 1 when no superuser exists, otherwise discover the process
definitions under the search paths and register them with the
earliest-joined superuser as contributor. -/
def handle (st : Db) (allUsers : List User) (paths : List SearchPath)
    (filters : Option (List String)) (force : Bool) : Except PyErr Db :=
  match earliestSuperuser allUsers with
  | none => .error (.systemExit 1)
  | some admin =>
    let processesPaths := if paths.isEmpty then finderProcessPaths else paths
    match collectFromPaths filters processesPaths with
    | .error e => .error e
    | .ok schemas => register_processes st admin.id force schemas

mutual

/-- Every leaf type of the field ends in the namespace separator. -/
def fieldColonFixed : Field → Bool
  | .leaf _ t _ => lastIsColon t
  | .group _ sub => fieldsColonFixed sub

/-- Every leaf type of the field list ends in the namespace separator. -/
def fieldsColonFixed : List Field → Bool
  | [] => true
  | f :: fs => fieldColonFixed f && fieldsColonFixed fs

end

/-- Every type string of the normalized definition — the top-level `type`
and the type of every nested field of `input`/`output`/`var`/`static` — ends
in the namespace separator `':'`. -/
def allTypeStringsColon (q : ProcDef) : Bool :=
  (match q.type? with
   | some t => lastIsColon t
   | none => false)
  && (match q.input? with
      | some fs => fieldsColonFixed fs
      | none => true)
  && (match q.output? with
      | some fs => fieldsColonFixed fs
      | none => true)
  && (match q.var? with
      | some fs => fieldsColonFixed fs
      | none => true)
  && (match q.static? with
      | some fs => fieldsColonFixed fs
      | none => true)

/-- What holds of a definition after a successful normalization pass; enough
to make a second pass the identity. -/
structure PostNorm (q : ProcDef) : Prop where
  type_colon : ∃ t, q.type? = some t ∧ lastIsColon t = true
  cat_colon : ∀ c, q.category? = some c → lastIsColon c = true
  slug_some : q.slug?.isSome = true
  data_name_fix : ∀ fs d, q.static? = some fs → dataNameFromStatic fs = some d →
    q.data_name? = some d
  input_fix : ∀ fs, q.input? = some fs → addColonFields fs = .ok fs
  output_fix : ∀ fs, q.output? = some fs → addColonFields fs = .ok fs
  var_fix : ∀ fs, q.var? = some fs → addColonFields fs = .ok fs
  static_fix : ∀ fs, q.static? = some fs → addColonFields fs = .ok fs

mutual

/-- Every leaf type string of the field is nonempty (so indexing `[-1]`
cannot raise). -/
def fieldTypesNonempty : Field → Bool
  | .leaf _ t _ => !t.data.isEmpty
  | .group _ sub => fieldsTypesNonempty sub

/-- Every leaf type string of the field list is nonempty. -/
def fieldsTypesNonempty : List Field → Bool
  | [] => true
  | f :: fs => fieldTypesNonempty f && fieldsTypesNonempty fs

end

/-- The `category` value after the category-colon fixup, as a function of the
old value. -/
def newCategory : Option String → Option String
  | none => none
  | some c => if lastIsColon c then some c else some (c ++ ":")

/-- The `data_name` value after the `static` scan, as a function of the old
`static` and `data_name` values. -/
def newDataName : Option (List Field) → Option String → Option String
  | some fs, old =>
    match dataNameFromStatic fs with
    | some d => some d
    | none => old
  | none, old => old

/-! Concrete sample data for evaluating the embedded command at specific
inputs. -/

/-- A minimal well-formed `run` block. -/
def sampleRun : RunBlock := ⟨some "bash", "echo ok"⟩

/-- A well-formed process definition for slug `proc` at a given version. -/
def defV (v : Version) (nm : String) : ProcDef :=
  { slug? := some "proc", name? := some nm, version? := some v,
    type? := some "data:test:", run? := some sampleRun }

/-- A stored row for slug `proc` at a given version. -/
def recV (pid : Nat) (v : Version) (nm : String) (ps : List (String × Nat)) :
    ProcessRecord :=
  ⟨pid, "proc", convert_version_string_to_int v, defV v nm, 1, ps⟩

/-- A store whose latest `proc` is version 0.10.0. -/
def dbNewer : Db := ⟨[recV 0 ⟨0, 10, 0⟩ "Old" [("view", 7)]], 1⟩

/-- A store holding exactly `proc` version 1.0.0. -/
def dbExact : Db := ⟨[recV 0 ⟨1, 0, 0⟩ "Old" [("view", 7)]], 1⟩

/-- A store holding `proc` versions 1.0.0 and 2.0.0. -/
def dbBoth : Db :=
  ⟨[recV 0 ⟨1, 0, 0⟩ "Old" [("view", 7)], recV 1 ⟨2, 0, 0⟩ "Old2" []], 2⟩

/-- A definition exercising every normalization branch: legacy naming (no
slug), uncolon'd types and category, and a `static` name default. -/
def legacyDef : ProcDef :=
  { name? := some "Test Process", label? := some "Nice label",
    version? := some ⟨1, 0, 2⟩, type? := some "data:test",
    category? := some "analyses",
    static? := some [Field.leaf "name" "basic:string" (some "Static name"),
                     Field.group "g" [Field.leaf "inner" "basic:int:" none]],
    input? := some [Field.leaf "src" "data:reads" none],
    run? := some sampleRun }

/-- The result of normalizing `legacyDef` (checked by the normalization
theorems): slug derived from the old-style name, `name` taken from `label`,
colons appended, `data_name` extracted, `var`/`static` dropped. -/
def legacyNormalized : ProcDef :=
  { slug? := some "test-process", name? := some "Nice label",
    version? := some ⟨1, 0, 2⟩, type? := some "data:test:",
    category? := some "analyses:", data_name? := some "Static name",
    input? := some [Field.leaf "src" "data:reads:" none],
    run? := some sampleRun }

/-- A definition with no `type` key at all. -/
def noTypeDef : ProcDef := { name? := some "X", label? := some "X" }

/-- A YAML file loading to one well-formed definition. -/
def goodYamlFile : YamlFile := ⟨"ok.yml", .value [defV ⟨1, 0, 0⟩ "P"]⟩

/-- A YAML file whose load raises (malformed YAML). -/
def badYamlFile : YamlFile := ⟨"bad.yml", .parseFailure⟩

/-- A YAML file loading to a falsy value (empty document). -/
def emptyYamlFile : YamlFile := ⟨"empty.yml", .value []⟩

/-- A directory whose first YAML file is malformed. -/
def dirWithBadFile : SearchPath := ⟨true, [badYamlFile, goodYamlFile]⟩

/-- A directory whose first YAML file is empty. -/
def dirWithEmptyFile : SearchPath := ⟨true, [emptyYamlFile, goodYamlFile]⟩

/-- A search path that is not a directory. -/
def notADir : SearchPath := ⟨false, []⟩

/-- A superuser who joined early. -/
def earlyAdmin : User := ⟨10, true, 5⟩

/-- A superuser who joined late. -/
def lateAdmin : User := ⟨11, true, 9⟩

/-- A non-superuser. -/
def plainUser : User := ⟨12, false, 1⟩


/-! Helper lemmas. -/

theorem lastIsColon_append (s : String) : lastIsColon (s ++ ":") = true := by
  simp [lastIsColon, String.data_append]

theorem data_ne_nil_of_lastIsColon {s : String} (h : lastIsColon s = true) :
    ¬ s.data = [] := by
  intro hnil
  simp [lastIsColon, hnil] at h

theorem normTypeStr_colon {t u : String} (h : normTypeStr t = .ok u) :
    lastIsColon u = true := by
  unfold normTypeStr at h
  split at h
  · cases h
  · split at h
    · cases h; assumption
    · cases h; exact lastIsColon_append t

theorem normTypeStr_of_colon {t : String} (h : lastIsColon t = true) :
    normTypeStr t = .ok t := by
  unfold normTypeStr
  rw [if_neg (data_ne_nil_of_lastIsColon h), if_pos h]

theorem normTypeStr_idem {t u : String} (h : normTypeStr t = .ok u) :
    normTypeStr u = .ok u :=
  normTypeStr_of_colon (normTypeStr_colon h)

mutual

theorem addColonField_colon : ∀ (f g : Field), addColonField f = .ok g →
    fieldColonFixed g = true
  | .leaf n t d, g, h => by
    unfold addColonField at h
    cases ht : normTypeStr t with
    | ok t' => rw [ht] at h; cases h; simpa [fieldColonFixed] using normTypeStr_colon ht
    | error e => rw [ht] at h; cases h
  | .group n sub, g, h => by
    unfold addColonField at h
    cases hs : addColonFields sub with
    | ok sub' => rw [hs] at h; cases h; simpa [fieldColonFixed] using addColonFields_colon sub sub' hs
    | error e => rw [hs] at h; cases h

theorem addColonFields_colon : ∀ (fs gs : List Field), addColonFields fs = .ok gs →
    fieldsColonFixed gs = true
  | [], gs, h => by
    unfold addColonFields at h; cases h; rfl
  | f :: fs, gs, h => by
    unfold addColonFields at h
    cases hf : addColonField f with
    | error e => rw [hf] at h; cases h
    | ok f' =>
      rw [hf] at h
      cases hfs : addColonFields fs with
      | error e => rw [hfs] at h; cases h
      | ok fs' =>
        rw [hfs] at h; cases h
        simp [fieldsColonFixed, addColonField_colon f f' hf, addColonFields_colon fs fs' hfs]

end

mutual

theorem addColonField_of_fixed : ∀ (f : Field), fieldColonFixed f = true →
    addColonField f = .ok f
  | .leaf n t d, h => by
    unfold fieldColonFixed at h
    unfold addColonField
    rw [normTypeStr_of_colon h]
  | .group n sub, h => by
    unfold fieldColonFixed at h
    unfold addColonField
    rw [addColonFields_of_fixed sub h]

theorem addColonFields_of_fixed : ∀ (fs : List Field), fieldsColonFixed fs = true →
    addColonFields fs = .ok fs
  | [], _ => rfl
  | f :: fs, h => by
    unfold fieldsColonFixed at h
    obtain ⟨h1, h2⟩ := Bool.and_eq_true_iff.mp h
    unfold addColonFields
    rw [addColonField_of_fixed f h1, addColonFields_of_fixed fs h2]

end

theorem addColonFields_idem {fs gs : List Field} (h : addColonFields fs = .ok gs) :
    addColonFields gs = .ok gs :=
  addColonFields_of_fixed gs (addColonFields_colon fs gs h)

mutual

theorem scan_addColonField : ∀ (f g : Field), addColonField f = .ok g →
    ∀ acc, (leavesF g).foldl dataNameScan acc = (leavesF f).foldl dataNameScan acc
  | .leaf n t d, g, h, acc => by
    unfold addColonField at h
    cases ht : normTypeStr t with
    | error e => rw [ht] at h; cases h
    | ok t' =>
      rw [ht] at h; cases h
      simp only [leavesF, List.foldl]
      cases d <;> rfl
  | .group n sub, g, h, acc => by
    unfold addColonField at h
    cases hs : addColonFields sub with
    | error e => rw [hs] at h; cases h
    | ok sub' =>
      rw [hs] at h; cases h
      simpa [leavesF] using scan_addColonFields sub sub' hs acc

theorem scan_addColonFields : ∀ (fs gs : List Field), addColonFields fs = .ok gs →
    ∀ acc, (leavesL gs).foldl dataNameScan acc = (leavesL fs).foldl dataNameScan acc
  | [], gs, h, acc => by
    unfold addColonFields at h; cases h; rfl
  | f :: fs, gs, h, acc => by
    unfold addColonFields at h
    cases hf : addColonField f with
    | error e => rw [hf] at h; cases h
    | ok f' =>
      rw [hf] at h
      cases hfs : addColonFields fs with
      | error e => rw [hfs] at h; cases h
      | ok fs' =>
        rw [hfs] at h; cases h
        simp only [leavesL, List.foldl_append]
        rw [scan_addColonField f f' hf acc, scan_addColonFields fs fs' hfs]

end

theorem dataNameFromStatic_addColonFields {fs gs : List Field}
    (h : addColonFields fs = .ok gs) :
    dataNameFromStatic gs = dataNameFromStatic fs :=
  scan_addColonFields fs gs h none

theorem normTypeStep_ok {p q : ProcDef} (h : normTypeStep p = .ok q) :
    ∃ t t', p.type? = some t ∧ normTypeStr t = .ok t' ∧
      q = { p with type? := some t' } := by
  unfold normTypeStep at h
  split at h
  · cases h
  · split at h
    · cases h
      refine ⟨_, _, by assumption, by assumption, rfl⟩
    · cases h

theorem normCategoryStep_eq (p : ProcDef) :
    normCategoryStep p = { p with category? := newCategory p.category? } := by
  unfold normCategoryStep newCategory
  cases hc : p.category? with
  | none => cases p; simp_all
  | some c =>
    by_cases hcol : lastIsColon c
    · simp only [hcol, if_true]
      cases p; simp_all
    · simp [hcol]

theorem dataNameStep_eq (p : ProcDef) :
    dataNameStep p = { p with data_name? := newDataName p.static? p.data_name? } := by
  unfold dataNameStep newDataName
  cases hs : p.static? with
  | none => cases p; simp_all
  | some fs =>
    cases hd : dataNameFromStatic fs with
    | none => simp only [hd]; cases p; simp_all
    | some d => simp [hd]

theorem renameLegacyStep_ok {p q : ProcDef} (h : renameLegacyStep p = .ok q) :
    (p.slug?.isSome = true ∧ q = p) ∨
    (∃ nm lb, p.slug? = none ∧ p.name? = some nm ∧ p.label? = some lb ∧
      q = { p with slug? := some (slugify (replaceColonDash nm)),
                   name? := some lb, label? := none,
                   var? := none, static? := none }) := by
  unfold renameLegacyStep at h
  split at h
  · cases h
    exact Or.inl ⟨by simp_all, rfl⟩
  · split at h
    · cases h
    · split at h
      · cases h
      · cases h
        exact Or.inr ⟨_, _, by assumption, by assumption, by assumption, rfl⟩

theorem addColonOpt_ok {o o' : Option (List Field)} (h : addColonOpt o = .ok o') :
    (o = none ∧ o' = none) ∨
    (∃ fs gs, o = some fs ∧ o' = some gs ∧ addColonFields fs = .ok gs) := by
  cases o with
  | none =>
    simp only [addColonOpt] at h
    cases h
    exact Or.inl ⟨rfl, rfl⟩
  | some fs =>
    simp only [addColonOpt] at h
    cases hfs : addColonFields fs with
    | error e => rw [hfs] at h; cases h
    | ok gs => rw [hfs] at h; cases h; exact Or.inr ⟨fs, gs, rfl, rfl, hfs⟩

theorem addColonOpt_idem {o o' : Option (List Field)} (h : addColonOpt o = .ok o') :
    addColonOpt o' = .ok o' := by
  rcases addColonOpt_ok h with ⟨-, rfl⟩ | ⟨fs, gs, -, rfl, hok⟩
  · rfl
  · simp only [addColonOpt]
    rw [addColonFields_idem hok]

theorem colonFieldsStep_ok {p q : ProcDef} (h : colonFieldsStep p = .ok q) :
    ∃ i o v s, addColonOpt p.input? = .ok i ∧ addColonOpt p.output? = .ok o ∧
      addColonOpt p.var? = .ok v ∧ addColonOpt p.static? = .ok s ∧
      q = { p with input? := i, output? := o, var? := v, static? := s } := by
  unfold colonFieldsStep at h
  split at h
  · cases h
  · split at h
    · cases h
    · split at h
      · cases h
      · split at h
        · cases h
        · cases h
          exact ⟨_, _, _, _, by assumption, by assumption, by assumption, by assumption, rfl⟩

theorem newCategory_colon {o : Option String} {c : String}
    (h : newCategory o = some c) : lastIsColon c = true := by
  cases o with
  | none => cases h
  | some c0 =>
    simp only [newCategory] at h
    by_cases hc : lastIsColon c0
    · rw [if_pos hc] at h; cases h; exact hc
    · rw [if_neg hc] at h; cases h; exact lastIsColon_append c0

theorem newCategory_fix {o : Option String}
    (h : ∀ c, o = some c → lastIsColon c = true) : newCategory o = o := by
  cases o with
  | none => rfl
  | some c => simp [newCategory, h c rfl]

theorem addColonOpt_fix {o o' : Option (List Field)} (h : addColonOpt o = .ok o') :
    ∀ fs, o' = some fs → addColonFields fs = .ok fs := by
  intro fs hfs
  rcases addColonOpt_ok h with ⟨-, rfl⟩ | ⟨fs0, gs, -, hgs, hok⟩
  · cases hfs
  · rw [hgs] at hfs; cases hfs
    exact addColonFields_idem hok

theorem addColonOpt_of_fix {o : Option (List Field)}
    (h : ∀ fs, o = some fs → addColonFields fs = .ok fs) : addColonOpt o = .ok o := by
  cases o with
  | none => rfl
  | some fs => simp [addColonOpt, h fs rfl]

theorem postNorm_of_normalize {p q : ProcDef} (h : normalize p = .ok q) : PostNorm q := by
  unfold normalize at h
  split at h
  · cases h
  · rename_i p1 heq
    split at h
    · cases h
    · rename_i p4 heq2
      obtain ⟨t, t', hpt, ht, hp1⟩ := normTypeStep_ok heq
      subst hp1
      have hp3 : dataNameStep (normCategoryStep { p with type? := some t' }) =
          { p with type? := some t',
                   category? := newCategory p.category?,
                   data_name? := newDataName p.static? p.data_name? } := by
        rw [normCategoryStep_eq, dataNameStep_eq]
      rw [hp3] at heq2
      obtain ⟨i, o, v, s, hi, ho, hv, hs, hq⟩ := colonFieldsStep_ok h
      rcases renameLegacyStep_ok heq2 with ⟨hslug, hp4⟩ | ⟨nm, lb, hsl, hnm, hlb, hp4⟩
      · subst hp4
        subst hq
        refine ⟨⟨t', rfl, normTypeStr_colon ht⟩, ?_, hslug, ?_, ?_, ?_, ?_, ?_⟩
        · intro c hc
          exact newCategory_colon hc
        · intro fs d hfs hd
          rcases addColonOpt_ok hs with ⟨-, hsn⟩ | ⟨fs0, gs, hsome, hgs, hok⟩
          · subst hsn; cases hfs
          · subst hgs
            cases hfs
            have hd0 : dataNameFromStatic fs0 = some d := by
              rw [← dataNameFromStatic_addColonFields hok]; exact hd
            show newDataName p.static? p.data_name? = some d
            have hstat : p.static? = some fs0 := hsome
            rw [hstat]
            simp [newDataName, hd0]
        · intro fs hfs; exact addColonOpt_fix hi fs hfs
        · intro fs hfs; exact addColonOpt_fix ho fs hfs
        · intro fs hfs; exact addColonOpt_fix hv fs hfs
        · intro fs hfs; exact addColonOpt_fix hs fs hfs
      · subst hp4
        subst hq
        refine ⟨⟨t', rfl, normTypeStr_colon ht⟩, ?_, rfl, ?_, ?_, ?_, ?_, ?_⟩
        · intro c hc
          exact newCategory_colon hc
        · intro fs d hfs hd
          rcases addColonOpt_ok hs with ⟨-, hsn⟩ | ⟨fs0, gs, hsome, hgs, hok⟩
          · subst hsn; cases hfs
          · cases hsome
        · intro fs hfs; exact addColonOpt_fix hi fs hfs
        · intro fs hfs; exact addColonOpt_fix ho fs hfs
        · intro fs hfs; exact addColonOpt_fix hv fs hfs
        · intro fs hfs; exact addColonOpt_fix hs fs hfs

theorem setType_self {q : ProcDef} {t : Option String} (h : q.type? = t) :
    { q with type? := t } = q := by
  cases q; simp_all

theorem normalize_of_postNorm {q : ProcDef} (hq : PostNorm q) : normalize q = .ok q := by
  obtain ⟨⟨t, hty, htc⟩, hcat, hslug, hdn, hin, hout, hvar, hstat⟩ := hq
  have h1 : normTypeStep q = .ok q := by
    simp only [normTypeStep, hty, normTypeStr_of_colon htc]
    rw [setType_self hty]
  have h2 : normCategoryStep q = q := by
    rw [normCategoryStep_eq, newCategory_fix hcat]
  have h3 : dataNameStep q = q := by
    rw [dataNameStep_eq]
    have hfix : newDataName q.static? q.data_name? = q.data_name? := by
      cases hs : q.static? with
      | none => rfl
      | some fs =>
        cases hd : dataNameFromStatic fs with
        | none => simp [newDataName, hd]
        | some d =>
          simp only [newDataName, hd]
          exact (hdn fs d hs hd).symm
    rw [hfix]
  have h4 : renameLegacyStep q = .ok q := by
    obtain ⟨s, hsome⟩ := Option.isSome_iff_exists.mp hslug
    simp only [renameLegacyStep, hsome]
  have h5 : colonFieldsStep q = .ok q := by
    simp only [colonFieldsStep, addColonOpt_of_fix hin, addColonOpt_of_fix hout,
      addColonOpt_of_fix hvar, addColonOpt_of_fix hstat]
  simp only [normalize, h1, h2, h3, h4, h5]

theorem normalize_idem {p q : ProcDef} (h : normalize p = .ok q) :
    normalize q = .ok q :=
  normalize_of_postNorm (postNorm_of_normalize h)

theorem allTypeStringsColon_of_postNorm {q : ProcDef} (hq : PostNorm q) :
    allTypeStringsColon q = true := by
  obtain ⟨⟨t, hty, htc⟩, hcat, hslug, hdn, hin, hout, hvar, hstat⟩ := hq
  unfold allTypeStringsColon
  rw [hty]
  refine Bool.and_eq_true_iff.mpr ⟨Bool.and_eq_true_iff.mpr ⟨Bool.and_eq_true_iff.mpr
    ⟨Bool.and_eq_true_iff.mpr ⟨htc, ?_⟩, ?_⟩, ?_⟩, ?_⟩
  · cases hfs : q.input? with
    | none => rfl
    | some fs => exact addColonFields_colon fs fs (hin fs hfs)
  · cases hfs : q.output? with
    | none => rfl
    | some fs => exact addColonFields_colon fs fs (hout fs hfs)
  · cases hfs : q.var? with
    | none => rfl
    | some fs => exact addColonFields_colon fs fs (hvar fs hfs)
  · cases hfs : q.static? with
    | none => rfl
    | some fs => exact addColonFields_colon fs fs (hstat fs hfs)

theorem normTypeStr_total {t : String} (h : ¬ t.data = []) :
    ∃ t', normTypeStr t = .ok t' := by
  unfold normTypeStr
  rw [if_neg h]
  by_cases hc : lastIsColon t
  · exact ⟨t, by rw [if_pos hc]⟩
  · exact ⟨t ++ ":", by rw [if_neg hc]⟩

mutual

theorem addColonField_total : ∀ f : Field, fieldTypesNonempty f = true →
    ∃ g, addColonField f = .ok g
  | .leaf n t d, h => by
    unfold fieldTypesNonempty at h
    have ht : ¬ t.data = [] := by simpa using h
    obtain ⟨t', ht'⟩ := normTypeStr_total ht
    exact ⟨.leaf n t' d, by simp [addColonField, ht']⟩
  | .group n sub, h => by
    unfold fieldTypesNonempty at h
    obtain ⟨sub', hsub⟩ := addColonFields_total sub h
    exact ⟨.group n sub', by simp [addColonField, hsub]⟩

theorem addColonFields_total : ∀ fs : List Field, fieldsTypesNonempty fs = true →
    ∃ gs, addColonFields fs = .ok gs
  | [], _ => ⟨[], rfl⟩
  | f :: fs, h => by
    unfold fieldsTypesNonempty at h
    obtain ⟨h1, h2⟩ := Bool.and_eq_true_iff.mp h
    obtain ⟨g, hg⟩ := addColonField_total f h1
    obtain ⟨gs, hgs⟩ := addColonFields_total fs h2
    exact ⟨g :: gs, by simp [addColonFields, hg, hgs]⟩

end

theorem addColonOpt_total {o : Option (List Field)}
    (h : ∀ fs, o = some fs → fieldsTypesNonempty fs = true) :
    ∃ o', addColonOpt o = .ok o' := by
  cases o with
  | none => exact ⟨none, rfl⟩
  | some fs =>
    obtain ⟨gs, hgs⟩ := addColonFields_total fs (h fs rfl)
    exact ⟨some gs, by simp [addColonOpt, hgs]⟩

theorem colonFieldsStep_total {p : ProcDef}
    (hin : ∀ fs, p.input? = some fs → fieldsTypesNonempty fs = true)
    (hout : ∀ fs, p.output? = some fs → fieldsTypesNonempty fs = true)
    (hvar : ∀ fs, p.var? = some fs → fieldsTypesNonempty fs = true)
    (hstat : ∀ fs, p.static? = some fs → fieldsTypesNonempty fs = true) :
    ∃ q, colonFieldsStep p = .ok q := by
  obtain ⟨i, hi⟩ := addColonOpt_total (o := p.input?) hin
  obtain ⟨o, ho⟩ := addColonOpt_total (o := p.output?) hout
  obtain ⟨v, hv⟩ := addColonOpt_total (o := p.var?) hvar
  obtain ⟨s, hs⟩ := addColonOpt_total (o := p.static?) hstat
  exact ⟨{ p with input? := i, output? := o, var? := v, static? := s },
    by simp only [colonFieldsStep, hi, ho, hv, hs]⟩

theorem normalize_total {p : ProcDef} {t : String}
    (hty : p.type? = some t) (hne : ¬ t.data = [])
    (hid : p.slug?.isSome = true ∨ (p.name?.isSome = true ∧ p.label?.isSome = true))
    (hin : ∀ fs, p.input? = some fs → fieldsTypesNonempty fs = true)
    (hout : ∀ fs, p.output? = some fs → fieldsTypesNonempty fs = true)
    (hvar : ∀ fs, p.var? = some fs → fieldsTypesNonempty fs = true)
    (hstat : ∀ fs, p.static? = some fs → fieldsTypesNonempty fs = true) :
    ∃ q, normalize p = .ok q := by
  obtain ⟨t', ht'⟩ := normTypeStr_total hne
  have h1 : normTypeStep p = .ok { p with type? := some t' } := by
    simp only [normTypeStep, hty, ht']
  have hp3 : dataNameStep (normCategoryStep { p with type? := some t' }) =
      { p with type? := some t',
               category? := newCategory p.category?,
               data_name? := newDataName p.static? p.data_name? } := by
    rw [normCategoryStep_eq, dataNameStep_eq]
  cases hsl : p.slug? with
  | some s =>
    have h4 : renameLegacyStep
        { p with type? := some t',
                 category? := newCategory p.category?,
                 data_name? := newDataName p.static? p.data_name? } =
        .ok { p with type? := some t',
                     category? := newCategory p.category?,
                     data_name? := newDataName p.static? p.data_name? } := by
      simp only [renameLegacyStep, hsl]
    obtain ⟨q, hq⟩ := colonFieldsStep_total
      (p := { p with type? := some t',
                     category? := newCategory p.category?,
                     data_name? := newDataName p.static? p.data_name? })
      hin hout hvar hstat
    exact ⟨q, by simp only [normalize, h1, hp3, h4, hq]⟩
  | none =>
    rcases hid with hid | ⟨hnm, hlb⟩
    · rw [hsl] at hid; cases hid
    · obtain ⟨nm, hnm'⟩ := Option.isSome_iff_exists.mp hnm
      obtain ⟨lb, hlb'⟩ := Option.isSome_iff_exists.mp hlb
      have h4 : renameLegacyStep
          { p with type? := some t',
                   category? := newCategory p.category?,
                   data_name? := newDataName p.static? p.data_name? } =
          .ok { p with slug? := some (slugify (replaceColonDash nm)),
                       name? := some lb, label? := none,
                       type? := some t',
                       category? := newCategory p.category?,
                       data_name? := newDataName p.static? p.data_name?,
                       var? := none, static? := none } := by
        simp only [renameLegacyStep, hsl, hnm', hlb']
      obtain ⟨q, hq⟩ := colonFieldsStep_total
        (p := { p with slug? := some (slugify (replaceColonDash nm)),
                       name? := some lb, label? := none,
                       type? := some t',
                       category? := newCategory p.category?,
                       data_name? := newDataName p.static? p.data_name?,
                       var? := none, static? := none })
        hin hout (fun fs h => by cases h) (fun fs h => by cases h)
      exact ⟨q, by simp only [normalize, h1, hp3, h4, hq]⟩

theorem le_maxVersion {r : ProcessRecord} {l : List ProcessRecord} (h : r ∈ l) :
    ∃ m, maxVersion l = some m ∧ r.version ≤ m := by
  induction l with
  | nil => cases h
  | cons a l ih =>
    rcases List.mem_cons.mp h with rfl | h'
    · cases hm : maxVersion l with
      | none => exact ⟨r.version, by simp [maxVersion, hm], Nat.le_refl _⟩
      | some m => exact ⟨Nat.max r.version m, by simp [maxVersion, hm], Nat.le_max_left _ _⟩
    · obtain ⟨m, hm, hle⟩ := ih h'
      exact ⟨Nat.max a.version m, by simp [maxVersion, hm],
        Nat.le_trans hle (Nat.le_max_right _ _)⟩

theorem maxVersion_le {k : Nat} {l : List ProcessRecord}
    (h : ∀ r ∈ l, r.version ≤ k) : ∀ m, maxVersion l = some m → m ≤ k := by
  induction l with
  | nil => intro m hm; cases hm
  | cons a l ih =>
    intro m hm
    cases hml : maxVersion l with
    | none =>
      simp only [maxVersion, hml] at hm
      cases hm
      exact h a (List.mem_cons_self a l)
    | some m' =>
      simp only [maxVersion, hml] at hm
      cases hm
      exact Nat.max_le.mpr ⟨h a (List.mem_cons_self a l),
        ih (fun r hr => h r (List.mem_cons_of_mem a hr)) m' hml⟩

theorem earliestSuperuser_eq_none {us : List User}
    (h : ∀ u ∈ us, u.is_superuser = false) : earliestSuperuser us = none := by
  induction us with
  | nil => rfl
  | cons a l ih =>
    have ha := h a (List.mem_cons_self a l)
    simp [earliestSuperuser, ha, ih (fun u hu => h u (List.mem_cons_of_mem a hu))]

theorem earliestSuperuser_none_forall {us : List User}
    (h : earliestSuperuser us = none) : ∀ u ∈ us, u.is_superuser = false := by
  induction us with
  | nil => intro u hu; cases hu
  | cons a l ih =>
    simp only [earliestSuperuser] at h
    by_cases ha : a.is_superuser
    · rw [if_pos ha] at h
      cases hrest : earliestSuperuser l with
      | none => simp only [hrest] at h; cases h
      | some m =>
        simp only [hrest] at h
        split at h <;> cases h
    · rw [if_neg ha] at h
      intro u hu
      rcases List.mem_cons.mp hu with rfl | hu'
      · exact Bool.eq_false_iff.mpr ha
      · exact ih h u hu'

theorem earliestSuperuser_spec {us : List User} {admin : User}
    (h : earliestSuperuser us = some admin) :
    admin ∈ us ∧ admin.is_superuser = true ∧
      ∀ u ∈ us, u.is_superuser = true → admin.date_joined ≤ u.date_joined := by
  induction us generalizing admin with
  | nil => cases h
  | cons a l ih =>
    simp only [earliestSuperuser] at h
    by_cases ha : a.is_superuser
    · rw [if_pos ha] at h
      cases hrest : earliestSuperuser l with
      | none =>
        simp only [hrest] at h
        cases h
        refine ⟨List.mem_cons_self _ _, ha, ?_⟩
        intro u hu hsu
        rcases List.mem_cons.mp hu with rfl | hu'
        · exact Nat.le_refl _
        · have := earliestSuperuser_none_forall hrest u hu'
          rw [this] at hsu
          cases hsu
      | some m =>
        simp only [hrest] at h
        obtain ⟨hmem, hsup, hmin⟩ := ih hrest
        by_cases hlt : m.date_joined < a.date_joined
        · rw [if_pos hlt] at h
          cases h
          refine ⟨List.mem_cons_of_mem a hmem, hsup, ?_⟩
          intro u hu hsu
          rcases List.mem_cons.mp hu with rfl | hu'
          · exact Nat.le_of_lt hlt
          · exact hmin u hu' hsu
        · rw [if_neg hlt] at h
          cases h
          refine ⟨List.mem_cons_self _ _, ha, ?_⟩
          intro u hu hsu
          rcases List.mem_cons.mp hu with rfl | hu'
          · exact Nat.le_refl _
          · exact Nat.le_trans (Nat.not_lt.mp hlt) (hmin u hu' hsu)
    · rw [if_neg ha] at h
      obtain ⟨hmem, hsup, hmin⟩ := ih h
      refine ⟨List.mem_cons_of_mem a hmem, hsup, ?_⟩
      intro u hu hsu
      rcases List.mem_cons.mp hu with rfl | hu'
      · rw [hsu] at ha; cases ha rfl
      · exact hmin u hu' hsu

theorem processOne_contributor {st st' : Db} {user : Nat} {force : Bool} {p0 : ProcDef}
    (h : processOne st user force p0 = .ok st') :
    ∀ r ∈ st'.procs,
      (∃ r0 ∈ st.procs, r0.id = r.id ∧ r0.contributor = r.contributor) ∨
      r.contributor = user := by
  cases hprep : prepare p0 with
  | error e => rw [processOne, hprep] at h; cases h
  | ok o =>
    cases o with
    | none =>
      rw [processOne, hprep] at h
      cases h
      intro r hr
      exact Or.inl ⟨r, hr, rfl, rfl⟩
    | some sp =>
      obtain ⟨slug, p⟩ := sp
      cases hv : p.version? with
      | none => simp [processOne, hprep, hv] at h
      | some v =>
        simp only [processOne, hprep, hv] at h
        split at h
        · cases h
          intro r hr
          exact Or.inl ⟨r, hr, rfl, rfl⟩
        · split at h
          · split at h
            · cases h
              intro r hr
              exact Or.inl ⟨r, hr, rfl, rfl⟩
            · cases h
              intro r hr
              obtain ⟨a, ha, hra⟩ := List.mem_map.mp hr
              refine Or.inl ⟨a, ha, ?_, ?_⟩ <;>
                (rw [← hra]; split <;> rfl)
          · cases h
            intro r hr
            simp only [List.mem_append, List.mem_singleton] at hr
            rcases hr with hr | hr
            · exact Or.inl ⟨r, hr, rfl, rfl⟩
            · right
              subst hr
              cases hL : latestRecord (st.procs.filter
                  (fun q => q.slug = slug)) with
              | none => simp [hL, assign_contributor_permissions]
              | some prev => simp [hL, copy_permissions, assign_contributor_permissions]

theorem register_processes_contributor :
    ∀ (ps : List ProcDef) (st st' : Db) (user : Nat) (force : Bool),
    register_processes st user force ps = .ok st' →
    ∀ r ∈ st'.procs,
      (∃ r0 ∈ st.procs, r0.id = r.id ∧ r0.contributor = r.contributor) ∨
      r.contributor = user
  | [], st, st', user, force, h => by
    cases h
    intro r hr
    exact Or.inl ⟨r, hr, rfl, rfl⟩
  | p :: ps, st, st', user, force, h => by
    unfold register_processes at h
    split at h
    · cases h
    · rename_i st1 heq
      intro r hr
      rcases register_processes_contributor ps st1 st' user force h r hr with
        ⟨r0, hr0, hid, hco⟩ | hu
      · rcases processOne_contributor heq r0 hr0 with ⟨r1, hr1, hid1, hco1⟩ | hu1
        · exact Or.inl ⟨r1, hr1, hid1.trans hid, hco1.trans hco⟩
        · exact Or.inr (hco ▸ hu1)
      · exact Or.inr hu

theorem collectSchemas_total {filters : Option (List String)} :
    ∀ {files : List YamlFile},
    (∀ f ∈ files, f.load ≠ YamlLoad.parseFailure) →
    ∃ l, collectSchemas filters files = .ok l := by
  intro files
  induction files with
  | nil => exact fun _ => ⟨[], rfl⟩
  | cons f fs ih =>
    intro h
    obtain ⟨l, hl⟩ := ih (fun g hg => h g (List.mem_cons_of_mem f hg))
    by_cases hy : isYamlName f.name
    · cases hload : f.load with
      | parseFailure => exact absurd hload (h f (List.mem_cons_self f fs))
      | value docs =>
        cases hE : docs.isEmpty with
        | true => exact ⟨l, by simp [collectSchemas, hy, hload, hE, hl]⟩
        | false =>
          exact ⟨docs.filter (schemaPasses filters) ++ l,
            by simp [collectSchemas, hy, hload, hE, hl]⟩
    · exact ⟨l, by simp [collectSchemas, hy, hl]⟩

theorem find_schemas_total {sp : SearchPath} {filters : Option (List String)}
    (h : ∀ f ∈ sp.files, f.load ≠ YamlLoad.parseFailure) :
    ∃ o, find_schemas sp filters = .ok o := by
  by_cases hd : sp.isDir
  · obtain ⟨l, hl⟩ := @collectSchemas_total filters sp.files h
    exact ⟨some l, by simp [find_schemas, hd, hl]⟩
  · refine ⟨none, ?_⟩
    simp only [find_schemas]
    rw [if_pos]
    simp [hd]

theorem collectFromPaths_typeError {filters : Option (List String)} :
    ∀ (pre : List SearchPath) (sp : SearchPath) (post : List SearchPath),
    sp.isDir = false →
    (∀ q ∈ pre, ∀ f ∈ q.files, f.load ≠ YamlLoad.parseFailure) →
    collectFromPaths filters (pre ++ sp :: post) = .error .typeError
  | [], sp, post, hdir, _ => by
    have hfs : find_schemas sp filters = .ok none := by
      simp [find_schemas, hdir]
    simp [collectFromPaths, hfs]
  | q :: pre, sp, post, hdir, hpre => by
    obtain ⟨o, ho⟩ := @find_schemas_total q filters
      (hpre q (List.mem_cons_self q pre))
    have ih := @collectFromPaths_typeError filters pre sp post hdir
      (fun q' hq' => hpre q' (List.mem_cons_of_mem q hq'))
    cases o with
    | none => simp [collectFromPaths, ho]
    | some l => simp [collectFromPaths, ho, ih]



/-! Claim theorems. -/

/-- C1: a process definition whose slug already has a registered record with
a strictly greater packed-integer version is skipped by `register_processes`
without inserting or updating anything, whatever the force flag; the
comparison is the packed integer encoding of major/minor/patch, which (as
the second conjunct shows on 0.10.0 versus 0.9.0) orders versions
differently from lexical string comparison. -/
theorem register_skips_strictly_newer_version :
    (∀ (st : Db) (user : Nat) (force : Bool) (p0 : ProcDef) (slug : String)
        (p : ProcDef) (v : Version) (r : ProcessRecord),
      prepare p0 = .ok (some (slug, p)) → p.version? = some v →
      r ∈ st.procs → r.slug = slug →
      convert_version_string_to_int v < r.version →
      processOne st user force p0 = .ok st) ∧
    convert_version_string_to_int ⟨0, 9, 0⟩ < convert_version_string_to_int ⟨0, 10, 0⟩ ∧
    pyStrLt (versionString ⟨0, 10, 0⟩) (versionString ⟨0, 9, 0⟩) = true := by
  refine ⟨?_, by decide, by decide⟩
  intro st user force p0 slug p v r hprep hv hr hslug hlt
  simp only [processOne, hprep, hv]
  have hmem : r ∈ st.procs.filter (fun r => r.slug = slug) :=
    List.mem_filter.mpr ⟨hr, by simp [hslug]⟩
  obtain ⟨m, hm, hle⟩ := le_maxVersion hmem
  rw [hm]
  simp [Nat.lt_of_lt_of_le hlt hle]

/-- C1 witness: with `proc` 0.10.0 installed, registering `proc` 0.9.0 with
the force flag leaves the store untouched (lexically "0.9.0" is the greater
string, so lexical comparison would not have skipped). -/
theorem register_skips_strictly_newer_version_witness :
    processOne dbNewer 1 true (defV ⟨0, 9, 0⟩ "New") = .ok dbNewer :=
  register_skips_strictly_newer_version.1 dbNewer 1 true (defV ⟨0, 9, 0⟩ "New")
    "proc" (defV ⟨0, 9, 0⟩ "New") ⟨0, 9, 0⟩ (recV 0 ⟨0, 10, 0⟩ "Old" [("view", 7)])
    rfl rfl (List.mem_singleton.mpr rfl) rfl (by decide)

/-- C2: when a record with the definition's exact (slug, version) pair
already exists and the force flag is absent, `register_processes` returns
the store unchanged — no insert, no update, no permission change. -/
theorem register_same_version_without_force_is_noop
    (st : Db) (user : Nat) (p0 : ProcDef) (slug : String) (p : ProcDef)
    (v : Version) (r : ProcessRecord)
    (hprep : prepare p0 = .ok (some (slug, p))) (hv : p.version? = some v)
    (hr : r ∈ st.procs) (hslug : r.slug = slug)
    (hver : r.version = convert_version_string_to_int v) :
    processOne st user false p0 = .ok st := by
  simp only [processOne, hprep, hv]
  split
  · rfl
  · have hmem : r ∈ st.procs.filter
        (fun q => q.slug = slug && q.version = convert_version_string_to_int v) :=
      List.mem_filter.mpr ⟨hr, by simp [hslug, hver]⟩
    cases hE : (st.procs.filter
        (fun q => q.slug = slug && q.version = convert_version_string_to_int v)).isEmpty with
    | true =>
      rw [List.isEmpty_iff] at hE
      rw [hE] at hmem
      cases hmem
    | false => simp [hE]

/-- C2 witness: re-registering `proc` 1.0.0 over the store that already
holds exactly that version, without force, returns the store unchanged. -/
theorem register_same_version_without_force_is_noop_witness :
    processOne dbExact 1 false (defV ⟨1, 0, 0⟩ "New") = .ok dbExact :=
  register_same_version_without_force_is_noop dbExact 1 (defV ⟨1, 0, 0⟩ "New")
    "proc" (defV ⟨1, 0, 0⟩ "New") ⟨1, 0, 0⟩ (recV 0 ⟨1, 0, 0⟩ "Old" [("view", 7)])
    rfl rfl (List.mem_singleton.mpr rfl) rfl rfl

/-- C3: a valid definition whose (slug, version) pair is new and whose slug
has no strictly newer registered version is inserted as a fresh record with
the given contributor, the contributor is granted the full permission set on
it, and when the slug already had a latest version that record's permission
grants are all copied onto the new record. -/
theorem register_inserts_new_version_and_propagates_permissions
    (st : Db) (user : Nat) (force : Bool) (p0 : ProcDef) (slug : String)
    (p : ProcDef) (v : Version)
    (hprep : prepare p0 = .ok (some (slug, p))) (hv : p.version? = some v)
    (hmax : ∀ r ∈ st.procs, r.slug = slug → r.version ≤ convert_version_string_to_int v)
    (hnoexact : ∀ r ∈ st.procs,
      ¬(r.slug = slug ∧ r.version = convert_version_string_to_int v)) :
    ∃ newR : ProcessRecord,
      processOne st user force p0 = .ok ⟨st.procs ++ [newR], st.nextId + 1⟩ ∧
      newR.slug = slug ∧ newR.version = convert_version_string_to_int v ∧
      newR.fields = p ∧ newR.contributor = user ∧
      (∀ a ∈ ALL_PERMISSIONS, (a, user) ∈ newR.perms) ∧
      (∀ prev, latestRecord (st.procs.filter (fun r => r.slug = slug)) = some prev →
        ∀ g ∈ prev.perms, g ∈ newR.perms) := by
  simp only [processOne, hprep, hv]
  have hskip : (match maxVersion (st.procs.filter (fun r => r.slug = slug)) with
      | some lv => decide (convert_version_string_to_int v < lv)
      | none => false) = false := by
    cases hm : maxVersion (st.procs.filter (fun r => r.slug = slug)) with
    | none => rfl
    | some m =>
      have hle : m ≤ convert_version_string_to_int v := by
        refine maxVersion_le ?_ m hm
        intro r hr
        have := List.mem_filter.mp hr
        exact hmax r this.1 (by simpa using this.2)
      simp [Nat.not_lt.mpr hle]
  rw [hskip]
  have hexact : st.procs.filter
      (fun q => q.slug = slug && q.version = convert_version_string_to_int v) = [] := by
    refine List.filter_eq_nil_iff.mpr ?_
    intro a ha
    have := hnoexact a ha
    simpa using this
  rw [hexact]
  cases hprev : latestRecord (st.procs.filter (fun r => r.slug = slug)) with
  | none =>
    refine ⟨assign_contributor_permissions
      ⟨st.nextId, slug, convert_version_string_to_int v, p, user, []⟩,
      ?_, rfl, rfl, rfl, rfl, ?_, ?_⟩
    · simp [hprev]
    · intro a ha
      simp only [assign_contributor_permissions, List.nil_append]
      exact List.mem_map_of_mem _ ha
    · intro prev h
      cases h
  | some prev0 =>
    refine ⟨copy_permissions prev0 (assign_contributor_permissions
      ⟨st.nextId, slug, convert_version_string_to_int v, p, user, []⟩),
      ?_, rfl, rfl, rfl, rfl, ?_, ?_⟩
    · simp [hprev]
    · intro a ha
      simp only [copy_permissions, assign_contributor_permissions, List.nil_append]
      exact List.mem_append_left _ (List.mem_map_of_mem _ ha)
    · intro prev h
      cases h
      intro g hg
      simp only [copy_permissions, assign_contributor_permissions, List.nil_append]
      exact List.mem_append_right _ hg

/-- C3 witness: registering `proc` 2.0.0 over a store holding 1.0.0 with a
grant to user 7 appends one record contributed by user 1 that carries both
the contributor grants and the copied grant. -/
theorem register_inserts_new_version_and_propagates_permissions_witness :
    ∃ newR : ProcessRecord,
      processOne dbExact 1 false (defV ⟨2, 0, 0⟩ "New") =
        .ok ⟨dbExact.procs ++ [newR], dbExact.nextId + 1⟩ ∧
      newR.slug = "proc" ∧ newR.version = convert_version_string_to_int ⟨2, 0, 0⟩ ∧
      newR.fields = defV ⟨2, 0, 0⟩ "New" ∧ newR.contributor = 1 ∧
      (∀ a ∈ ALL_PERMISSIONS, (a, 1) ∈ newR.perms) ∧
      (∀ prev, latestRecord (dbExact.procs.filter (fun r => r.slug = "proc")) = some prev →
        ∀ g ∈ prev.perms, g ∈ newR.perms) :=
  register_inserts_new_version_and_propagates_permissions dbExact 1 false
    (defV ⟨2, 0, 0⟩ "New") "proc" (defV ⟨2, 0, 0⟩ "New") ⟨2, 0, 0⟩
    rfl rfl (by decide) (by decide)


/-- C4 counterexample: the claim fails when a strictly newer version of the
slug is also installed.  The store holds `proc` 1.0.0 (name "Old") and 2.0.0;
re-registering 1.0.0 with name "New" and the force flag set returns the
store unchanged — the 1.0.0 record still carries name "Old", so no in-place
update happened. -/
theorem force_update_blocked_by_newer_version :
    processOne dbBoth 1 true (defV ⟨1, 0, 0⟩ "New") = .ok dbBoth ∧
    dbBoth.procs.map (fun r => r.fields.name?) = [some "Old", some "Old2"] :=
  ⟨rfl, rfl⟩

/-- C4 (amended): when the exact (slug, version) record exists, the force
flag is set, AND the slug has no strictly newer registered version, the
matching record is updated in place with the normalized definition — the
record list is mapped, not extended, and the primary-key counter does not
move. -/
theorem force_update_rewrites_record_in_place
    (st : Db) (user : Nat) (p0 : ProcDef) (slug : String) (p : ProcDef)
    (v : Version) (r0 : ProcessRecord)
    (hprep : prepare p0 = .ok (some (slug, p))) (hv : p.version? = some v)
    (hmax : ∀ r ∈ st.procs, r.slug = slug → r.version ≤ convert_version_string_to_int v)
    (hr0 : r0 ∈ st.procs) (hslug : r0.slug = slug)
    (hver : r0.version = convert_version_string_to_int v) :
    processOne st user true p0 =
      .ok ⟨st.procs.map (fun r =>
        if r.slug = slug && r.version = convert_version_string_to_int v then
          { r with slug := slug, version := convert_version_string_to_int v, fields := p }
        else r), st.nextId⟩ := by
  simp only [processOne, hprep, hv]
  have hskip : (match maxVersion (st.procs.filter (fun r => r.slug = slug)) with
      | some lv => decide (convert_version_string_to_int v < lv)
      | none => false) = false := by
    cases hm : maxVersion (st.procs.filter (fun r => r.slug = slug)) with
    | none => rfl
    | some m =>
      have hle : m ≤ convert_version_string_to_int v := by
        refine maxVersion_le ?_ m hm
        intro r hr
        have := List.mem_filter.mp hr
        exact hmax r this.1 (by simpa using this.2)
      simp [Nat.not_lt.mpr hle]
  rw [hskip]
  have hmem : r0 ∈ st.procs.filter
      (fun q => q.slug = slug && q.version = convert_version_string_to_int v) :=
    List.mem_filter.mpr ⟨hr0, by simp [hslug, hver]⟩
  cases hE : (st.procs.filter
      (fun q => q.slug = slug && q.version = convert_version_string_to_int v)).isEmpty with
  | true =>
    rw [List.isEmpty_iff] at hE
    rw [hE] at hmem
    cases hmem
  | false => simp [hE]

/-- C4 witness: re-registering `proc` 1.0.0 with name "New" and force over a
store holding only 1.0.0 rewrites that record's fields in place. -/
theorem force_update_rewrites_record_in_place_witness :
    processOne dbExact 1 true (defV ⟨1, 0, 0⟩ "New") =
      .ok ⟨dbExact.procs.map (fun r =>
        if r.slug = "proc" && r.version = convert_version_string_to_int ⟨1, 0, 0⟩ then
          { r with slug := "proc", version := convert_version_string_to_int ⟨1, 0, 0⟩,
                   fields := defV ⟨1, 0, 0⟩ "New" }
        else r), dbExact.nextId⟩ :=
  force_update_rewrites_record_in_place dbExact 1 (defV ⟨1, 0, 0⟩ "New")
    "proc" (defV ⟨1, 0, 0⟩ "New") ⟨1, 0, 0⟩ (recV 0 ⟨1, 0, 0⟩ "Old" [("view", 7)])
    rfl rfl (by decide) (List.mem_singleton.mpr rfl) rfl rfl

/-- C5: a successful normalization leaves every type string — the top-level
`type` and every nested field type of `input`/`output`/`var`/`static` —
ending in the namespace separator, and normalization is idempotent:
normalizing the result again returns it unchanged. -/
theorem normalize_appends_colons_and_is_idempotent
    (p q : ProcDef) (h : normalize p = .ok q) :
    allTypeStringsColon q = true ∧ normalize q = .ok q :=
  ⟨allTypeStringsColon_of_postNorm (postNorm_of_normalize h),
   normalize_idem h⟩

/-- C5 witness: the legacy sample definition normalizes to
`legacyNormalized`, whose type strings all end in `':'` and which normalizes
to itself. -/
theorem normalize_appends_colons_and_is_idempotent_witness :
    allTypeStringsColon legacyNormalized = true ∧
      normalize legacyNormalized = .ok legacyNormalized :=
  normalize_appends_colons_and_is_idempotent legacyDef legacyNormalized rfl

/-- C6 counterexample: the normalization phase can raise — a definition with
no `type` key makes `p['type']` raise `KeyError`, so it is neither left
unmodified nor passed to validation. -/
theorem normalize_raises_on_missing_type_key :
    normalize noTypeDef = .error (.keyError "type") := rfl

/-- C6 (amended): normalization raises on malformed shapes (missing `type`
key, empty type string, legacy rename without `name`/`label`); it does not
raise on definitions with a nonempty `type` string, an identity (a `slug`,
or both `name` and `label`), and nonempty nested type strings. -/
theorem normalize_succeeds_on_wellshaped_definitions
    {p : ProcDef} {t : String}
    (hty : p.type? = some t) (hne : ¬ t.data = [])
    (hid : p.slug?.isSome = true ∨ (p.name?.isSome = true ∧ p.label?.isSome = true))
    (hin : ∀ fs, p.input? = some fs → fieldsTypesNonempty fs = true)
    (hout : ∀ fs, p.output? = some fs → fieldsTypesNonempty fs = true)
    (hvar : ∀ fs, p.var? = some fs → fieldsTypesNonempty fs = true)
    (hstat : ∀ fs, p.static? = some fs → fieldsTypesNonempty fs = true) :
    ∃ q, normalize p = .ok q :=
  normalize_total hty hne hid hin hout hvar hstat

/-- C6 witness: the legacy sample definition satisfies the shape conditions
and normalizes without raising. -/
theorem normalize_succeeds_on_wellshaped_definitions_witness :
    ∃ q, normalize legacyDef = .ok q :=
  normalize_succeeds_on_wellshaped_definitions (t := "data:test")
    rfl (by decide) (Or.inr ⟨rfl, rfl⟩)
    (by decide) (by decide) (by decide) (by decide)


/-- C7 counterexample: a malformed YAML file is not skipped — `yaml.load`
raises and nothing catches it, so `find_schemas` aborts the whole batch with
the exception instead of continuing; the second conjunct shows the remaining
file on its own would have contributed a definition. -/
theorem find_schemas_aborts_on_malformed_yaml :
    find_schemas dirWithBadFile none = .error .yamlError ∧
    find_schemas ⟨true, [goodYamlFile]⟩ none = .ok (some [defV ⟨1, 0, 0⟩ "P"]) :=
  ⟨rfl, rfl⟩

/-- C7 (amended): a YAML file that loads to an empty (falsy) document is
reported and skipped, the scan continuing with the remaining files; but a
YAML file whose parse fails raises an uncaught exception that aborts
`find_schemas` (and with it the command). -/
theorem find_schemas_skips_empty_but_aborts_on_malformed
    (filters : Option (List String)) (nm : String) (files : List YamlFile)
    (hy : isYamlName nm = true) :
    find_schemas ⟨true, ⟨nm, .value []⟩ :: files⟩ filters =
      find_schemas ⟨true, files⟩ filters ∧
    find_schemas ⟨true, ⟨nm, .parseFailure⟩ :: files⟩ filters =
      .error .yamlError := by
  constructor
  · have hskip : collectSchemas filters (⟨nm, .value []⟩ :: files) =
        collectSchemas filters files := by
      simp [collectSchemas, hy]
    simp [find_schemas, hskip]
  · simp [find_schemas, collectSchemas, hy]

/-- C7 witness: with the empty file first, the scan result equals the scan
of the remaining files; with a malformed file first, the scan raises. -/
theorem find_schemas_skips_empty_but_aborts_on_malformed_witness :
    find_schemas dirWithEmptyFile none = find_schemas ⟨true, [goodYamlFile]⟩ none ∧
    find_schemas ⟨true, [⟨"empty.yml", .parseFailure⟩, goodYamlFile]⟩ none =
      .error .yamlError :=
  find_schemas_skips_empty_but_aborts_on_malformed none "empty.yml"
    [goodYamlFile] rfl

/-- C8: with no superuser on record the command writes an error and exits
with status 1, registering nothing; otherwise the earliest-joined superuser
is the contributor of every record the run creates. -/
theorem handle_requires_superuser_and_uses_earliest_joined :
    (∀ (st : Db) (users : List User) (paths : List SearchPath)
        (filters : Option (List String)) (force : Bool),
      (∀ u ∈ users, u.is_superuser = false) →
      handle st users paths filters force = .error (.systemExit 1)) ∧
    (∀ (st : Db) (users : List User) (paths : List SearchPath)
        (filters : Option (List String)) (force : Bool) (admin : User),
      earliestSuperuser users = some admin →
      admin.is_superuser = true ∧
      (∀ u ∈ users, u.is_superuser = true → admin.date_joined ≤ u.date_joined) ∧
      (∀ db', handle st users paths filters force = .ok db' →
        ∀ r ∈ db'.procs,
          (∃ r0 ∈ st.procs, r0.id = r.id ∧ r0.contributor = r.contributor) ∨
          r.contributor = admin.id)) := by
  constructor
  · intro st users paths filters force h
    simp [handle, earliestSuperuser_eq_none h]
  · intro st users paths filters force admin hadmin
    obtain ⟨hmem, hsup, hmin⟩ := earliestSuperuser_spec hadmin
    refine ⟨hsup, hmin, ?_⟩
    intro db' h' r hr
    simp only [handle, hadmin] at h'
    split at h'
    · cases h'
    · rename_i schemas heq
      exact register_processes_contributor schemas st db' admin.id force h' r hr

/-- C8 witness: with only a non-superuser the command exits with status 1;
with two superusers on record the earlier-joined one is minimal among them. -/
theorem handle_requires_superuser_and_uses_earliest_joined_witness :
    handle dbExact [plainUser] [dirWithEmptyFile] none false =
      .error (.systemExit 1) ∧
    (∀ u ∈ [plainUser, lateAdmin, earlyAdmin], u.is_superuser = true →
      earlyAdmin.date_joined ≤ u.date_joined) :=
  ⟨handle_requires_superuser_and_uses_earliest_joined.1 dbExact [plainUser]
      [dirWithEmptyFile] none false (by decide),
   (handle_requires_superuser_and_uses_earliest_joined.2 dbExact
      [plainUser, lateAdmin, earlyAdmin] [] none false earlyAdmin rfl).2.1⟩

/-- C9: a search path that is not a directory makes `find_schemas` return
`None` instead of a list, and `handle`'s `process_schemas.extend(None)` then
raises `TypeError`, aborting the whole command (whatever later paths hold)
instead of skipping the path. -/
theorem find_schemas_none_on_nondirectory_aborts_handle
    (sp : SearchPath) (filters : Option (List String)) (hdir : sp.isDir = false) :
    find_schemas sp filters = .ok none ∧
    ∀ (st : Db) (users : List User) (admin : User) (pre post : List SearchPath)
      (force : Bool),
      earliestSuperuser users = some admin →
      (∀ q ∈ pre, ∀ f ∈ q.files, f.load ≠ YamlLoad.parseFailure) →
      handle st users (pre ++ sp :: post) filters force = .error .typeError := by
  constructor
  · simp [find_schemas, hdir]
  · intro st users admin pre post force hadmin hpre
    have hc := @collectFromPaths_typeError filters pre sp post hdir hpre
    have hne : (pre ++ sp :: post).isEmpty = false := by
      cases pre <;> rfl
    simp [handle, hadmin, hne, hc]

/-- C9 witness: a run over a non-directory path followed by a good directory
aborts with `TypeError`, registering nothing from the good directory. -/
theorem find_schemas_none_on_nondirectory_aborts_handle_witness :
    find_schemas notADir none = .ok none ∧
    handle dbExact [earlyAdmin] [notADir, dirWithEmptyFile] none false =
      .error .typeError :=
  ⟨(find_schemas_none_on_nondirectory_aborts_handle notADir none rfl).1,
   (find_schemas_none_on_nondirectory_aborts_handle notADir none rfl).2
      dbExact [earlyAdmin] earlyAdmin [] [dirWithEmptyFile] false rfl
      (by intro q hq; cases hq)⟩

/-- C10: on the force-update path (exact (slug, version) record present,
force set) the run changes only stored fields: the id, slug, version,
contributor and permission grants of every record are exactly what they were,
and no record is added or removed. -/
theorem force_update_changes_only_stored_fields
    (st : Db) (user : Nat) (p0 : ProcDef) (slug : String) (p : ProcDef)
    (v : Version) (r0 : ProcessRecord)
    (hprep : prepare p0 = .ok (some (slug, p))) (hv : p.version? = some v)
    (hr0 : r0 ∈ st.procs) (hslug : r0.slug = slug)
    (hver : r0.version = convert_version_string_to_int v) :
    ∃ st', processOne st user true p0 = .ok st' ∧ st'.nextId = st.nextId ∧
      st'.procs.map (fun r => (r.id, r.slug, r.version, r.contributor, r.perms)) =
        st.procs.map (fun r => (r.id, r.slug, r.version, r.contributor, r.perms)) := by
  simp only [processOne, hprep, hv]
  split
  · exact ⟨st, rfl, rfl, rfl⟩
  · have hmem : r0 ∈ st.procs.filter
        (fun q => q.slug = slug && q.version = convert_version_string_to_int v) :=
      List.mem_filter.mpr ⟨hr0, by simp [hslug, hver]⟩
    cases hE : (st.procs.filter
        (fun q => q.slug = slug && q.version = convert_version_string_to_int v)).isEmpty with
    | true =>
      rw [List.isEmpty_iff] at hE
      rw [hE] at hmem
      cases hmem
    | false =>
      refine ⟨⟨st.procs.map (fun r =>
          if r.slug = slug && r.version = convert_version_string_to_int v then
            { r with slug := slug, version := convert_version_string_to_int v, fields := p }
          else r), st.nextId⟩, by simp [hE], rfl, ?_⟩
      show (st.procs.map _).map _ = _
      rw [List.map_map]
      refine List.map_congr_left ?_
      intro a ha
      by_cases hc : (a.slug = slug && a.version = convert_version_string_to_int v) = true
      · have hc' := hc
        simp only [Bool.and_eq_true, decide_eq_true_eq] at hc'
        simp [hc, hc'.1, hc'.2]
      · have hnot : ¬(a.slug = slug ∧ a.version = convert_version_string_to_int v) := by
          simpa using hc
        simp [hnot]

/-- C10 witness: force-updating `proc` 1.0.0 in place leaves the record's
id, slug, version, contributor and grants untouched. -/
theorem force_update_changes_only_stored_fields_witness :
    ∃ st', processOne dbExact 1 true (defV ⟨1, 0, 0⟩ "New") = .ok st' ∧
      st'.nextId = dbExact.nextId ∧
      st'.procs.map (fun r => (r.id, r.slug, r.version, r.contributor, r.perms)) =
        dbExact.procs.map (fun r => (r.id, r.slug, r.version, r.contributor, r.perms)) :=
  force_update_changes_only_stored_fields dbExact 1 (defV ⟨1, 0, 0⟩ "New")
    "proc" (defV ⟨1, 0, 0⟩ "New") ⟨1, 0, 0⟩ (recV 0 ⟨1, 0, 0⟩ "Old" [("view", 7)])
    rfl rfl (List.mem_singleton.mpr rfl) rfl rfl

end Resolwe
